import Mathlib

/-!
# Verification of `pachyderm/glob` against its specification

The repository's visible source is the facade `glob.go`: `Compile`,
`MustCompile`, `Glob.Match`, `Glob.Capture`, `QuoteMeta`.  The pipeline it
calls (`syntax.Parse`, `compiler.Compile`, the `ast` package) and the two
execution engines (Go `regexp`, PCRE) are not part of the given sources, so
they are modelled from the specification (each such definition carries a
`Modelled from the spec:` doc comment).  Strings are modelled as `List Char`
(Go operates on runes/bytes; the spec's grammar is character based).
-/

/-- Strings are modelled as lists of characters. -/
abbrev Str := List Char

/-! ## The target dialect: a core regular-expression AST

Modelled from the spec: the Code Generator (§4.4, not in the given sources)
emits a pattern in the dialect of the selected execution engine; the engines
(§6, external collaborators) expose `compile` and `EngineHandle.matchWhole`.
We model the generated pattern string by its abstract syntax in the common
regular-expression core of both dialects, and `matchWhole` by a
Brzozowski-derivative matcher over that core, proved below to decide the
standard language semantics. `grp` marks a numbered capturing group
(Extended dialect); it is transparent for matching. -/
inductive Regex where
  | eps : Regex
  | cls (ranges : List (Char × Char)) (neg : Bool) : Regex
  | cat (a b : Regex) : Regex
  | alt (a b : Regex) : Regex
  | star (r : Regex) : Regex
  | grp (n : Nat) (r : Regex) : Regex
deriving Repr, DecidableEq

/-- A character class test: `c` is in the union of the ranges, flipped by
the negation flag. -/
def inCls (c : Char) (ranges : List (Char × Char)) (neg : Bool) : Bool :=
  (ranges.any fun p => p.1 ≤ c && c ≤ p.2) != neg

/-- The empty regex (matches nothing): a non-negated empty class. -/
def Regex.emp : Regex := .cls [] false

/-- Language semantics of the regex core (whole-string membership). -/
inductive RLang : Regex → Str → Prop where
  | eps : RLang .eps []
  | cls {c ranges neg} : inCls c ranges neg = true → RLang (.cls ranges neg) [c]
  | cat {a b s1 s2} : RLang a s1 → RLang b s2 → RLang (.cat a b) (s1 ++ s2)
  | altL {a b s} : RLang a s → RLang (.alt a b) s
  | altR {a b s} : RLang b s → RLang (.alt a b) s
  | starNil {r} : RLang (.star r) []
  | starCons {r s1 s2} : RLang r s1 → RLang (.star r) s2 →
      RLang (.star r) (s1 ++ s2)
  | grp {n r s} : RLang r s → RLang (.grp n r) s

/-- Nullability: does the regex accept the empty string? -/
def Regex.nullable : Regex → Bool
  | .eps => true
  | .cls _ _ => false
  | .cat a b => a.nullable && b.nullable
  | .alt a b => a.nullable || b.nullable
  | .star _ => true
  | .grp _ r => r.nullable

/-- Brzozowski derivative of a regex by a character. -/
def Regex.deriv (c : Char) : Regex → Regex
  | .eps => .emp
  | .cls ranges neg => if inCls c ranges neg then .eps else .emp
  | .cat a b =>
      if a.nullable then .alt (.cat (a.deriv c) b) (b.deriv c)
      else .cat (a.deriv c) b
  | .alt a b => .alt (a.deriv c) (b.deriv c)
  | .star r => .cat (r.deriv c) (.star r)
  | .grp _ r => r.deriv c

/-- Executable whole-string matcher by repeated derivatives. -/
def rmatch : Regex → Str → Bool
  | r, [] => r.nullable
  | r, c :: s => rmatch (r.deriv c) s

/-! ## The glob abstract syntax tree

Modelled from the spec: the AST node kinds of §3 (`ast` package, not in the
given sources). `AnySequenceAll` is represented, as in §3, by
`anySequence` with `acrossSeparators = true`; a `Sequence` is a
`List Node`; a `Group` owns a list of alternatives, each itself a
sequence. -/
inductive GroupKind where
  | oneOf | zeroOrOne | zeroOrMore | oneOrMore
deriving Repr, DecidableEq

inductive Node where
  | literal (c : Char) : Node
  | anyOne : Node
  | anySequence (acrossSeparators : Bool) : Node
  | charClass (ranges : List (Char × Char)) (negated : Bool) : Node
  | group (kind : GroupKind) (alternatives : List (List Node)) : Node

/-- Declarative whole-string matching semantics of a glob sequence against
its input, written from the spec's node descriptions (§3): a `literal`
consumes exactly its character; `anyOne` one non-separator character;
`anySequence` any characters (none a separator unless `acrossSeparators`);
`charClass` one character tested against the ranges and negation;
a `group` consumes, per its kind, zero/one/many chunks each matched by one
of its alternatives. The relation is threaded through the sequence so that
group repetition recurses at the same head node. -/
inductive SeqMatches (seps : List Char) : List Node → Str → Prop where
  | nil : SeqMatches seps [] []
  | literal {c ns s} : SeqMatches seps ns s →
      SeqMatches seps (.literal c :: ns) (c :: s)
  | anyOne {c ns s} : c ∉ seps → SeqMatches seps ns s →
      SeqMatches seps (.anyOne :: ns) (c :: s)
  | anySeq {across ns s1 s2} :
      (across = false → ∀ c ∈ s1, c ∉ seps) → SeqMatches seps ns s2 →
      SeqMatches seps (.anySequence across :: ns) (s1 ++ s2)
  | charClass {c ranges neg ns s} : inCls c ranges neg = true →
      SeqMatches seps ns s →
      SeqMatches seps (.charClass ranges neg :: ns) (c :: s)
  | groupOneOf {alts alt ns s1 s2} : alt ∈ alts →
      SeqMatches seps alt s1 → SeqMatches seps ns s2 →
      SeqMatches seps (.group .oneOf alts :: ns) (s1 ++ s2)
  | groupZeroOneNone {alts ns s} : SeqMatches seps ns s →
      SeqMatches seps (.group .zeroOrOne alts :: ns) s
  | groupZeroOneSome {alts alt ns s1 s2} : alt ∈ alts →
      SeqMatches seps alt s1 → SeqMatches seps ns s2 →
      SeqMatches seps (.group .zeroOrOne alts :: ns) (s1 ++ s2)
  | groupZeroMoreNone {alts ns s} : SeqMatches seps ns s →
      SeqMatches seps (.group .zeroOrMore alts :: ns) s
  | groupZeroMoreCons {alts alt ns s1 s2} : alt ∈ alts →
      SeqMatches seps alt s1 →
      SeqMatches seps (.group .zeroOrMore alts :: ns) s2 →
      SeqMatches seps (.group .zeroOrMore alts :: ns) (s1 ++ s2)
  | groupOneMoreLast {alts alt ns s1 s2} : alt ∈ alts →
      SeqMatches seps alt s1 → SeqMatches seps ns s2 →
      SeqMatches seps (.group .oneOrMore alts :: ns) (s1 ++ s2)
  | groupOneMoreCons {alts alt ns s1 s2} : alt ∈ alts →
      SeqMatches seps alt s1 →
      SeqMatches seps (.group .oneOrMore alts :: ns) s2 →
      SeqMatches seps (.group .oneOrMore alts :: ns) (s1 ++ s2)

/-! ## The feature analyzer

Modelled from the spec: §4.3 — walk the AST once; any `Group` node forces
the `Extended` (PCRE) engine, otherwise the `Basic` (regexp) engine. The
engine tags carry the names used by the facade's switch (`ast.Regexp`,
`ast.PCRE`). -/
inductive EngineTag where
  | regexpTag | pcreTag
deriving Repr, DecidableEq

mutual
/-- Does this node contain a group construct? -/
def Node.hasGroupB : Node → Bool
  | .group _ _ => true
  | _ => false

/-- Does any node of the sequence contain a group construct? -/
def seqHasGroupB : List Node → Bool
  | [] => false
  | n :: ns => n.hasGroupB || seqHasGroupB ns
end

/-- Modelled from the spec: the Feature Analyzer (§4.3). -/
def analyze (tree : List Node) : EngineTag :=
  if seqHasGroupB tree then .pcreTag else .regexpTag

/-- The claim-side reading of "the syntax tree contains a group/alternation
construct anywhere": a group node at the top level, further along the
sequence, or inside some alternative of a group. -/
inductive TreeHasGroup : List Node → Prop where
  | head {k alts ns} : TreeHasGroup (.group k alts :: ns)
  | tail {n ns} : TreeHasGroup ns → TreeHasGroup (n :: ns)
  | deep {k alts alt ns} : alt ∈ alts → TreeHasGroup alt →
      TreeHasGroup (.group k alts :: ns)

/-! ## The code generator

Modelled from the spec: §4.4 (`compiler` package, not in the given
sources). Each node is translated into the target dialect:
a literal becomes a one-character class; `AnyOne` a one-character class
excluding every configured separator; `AnySequence` a star over that
class (unrestricted when it crosses separators); `CharClass` the native
class; a `Group` the native alternation wrapped in a capturing group with
the group quantifier (`OneOf` exactly-one, `ZeroOrOne` optional,
`ZeroOrMore` star, `OneOrMore` plus). Capturing groups are numbered by
position of their opening parenthesis (left-to-right, outermost first):
the counter `n` is threaded through generation. -/
def sepClass (seps : List Char) : Regex :=
  .cls (seps.map fun c => (c, c)) true

mutual
def genNode (seps : List Char) : Node → Nat → Regex × Nat
  | .literal c, n => (.cls [(c, c)] false, n)
  | .anyOne, n => (sepClass seps, n)
  | .anySequence across, n =>
      (if across then .star (.cls [] true) else .star (sepClass seps), n)
  | .charClass ranges neg, n => (.cls ranges neg, n)
  | .group k alts, n =>
      let (inner, n') := genAlts seps alts (n + 1)
      let g : Regex := .grp n inner
      (match k with
       | .oneOf => g
       | .zeroOrOne => .alt g .eps
       | .zeroOrMore => .star g
       | .oneOrMore => .cat g (.star g), n')

def genSeq (seps : List Char) : List Node → Nat → Regex × Nat
  | [], n => (.eps, n)
  | t :: ts, n =>
      let (r, n') := genNode seps t n
      let (rest, n'') := genSeq seps ts n'
      (.cat r rest, n'')

def genAlts (seps : List Char) : List (List Node) → Nat → Regex × Nat
  | [], n => (.emp, n)
  | [a], n => genSeq seps a n
  | a :: rest, n =>
      let (r, n') := genSeq seps a n
      let (rs, n'') := genAlts seps rest n'
      (.alt r rs, n'')
end

/-! ## Scanner

Modelled from the spec: the Scanner of §4.1 (`syntax` package, not in the
given sources). Tokens follow the classification of §3. The scanner tracks
escape state, class context (with a flag for the first position inside the
brackets, where `-` is literal), current group nesting depth, and the byte
offset reported by lexical errors. -/
inductive Token where
  | literal (c : Char) : Token
  | escaped (c : Char) : Token
  | anyOne : Token
  | anySeq : Token
  | anySeqAll : Token
  | classOpen : Token
  | classClose : Token
  | classNegate : Token
  | classRangeDash : Token
  | groupOpen (k : GroupKind) : Token
  | groupClose : Token
  | alternator : Token
deriving Repr, DecidableEq

/-- Error taxonomy of §7 (the claims never inspect payloads beyond the
lexical byte offset; `engineError` models a rejection by the execution
engine, unreachable in this model where engine compilation is total). -/
inductive Err where
  | lexError (off : Nat) : Err
  | parseError : Err
  | engineError : Err
deriving Repr, DecidableEq

/-- Modelled from the spec: the Scanner (§4.1). Arguments: fuel (a
termination artifact only — every step consumes at least one character,
so `length + 1` fuel always suffices and the zero-fuel branch is
unreachable from the entry point), class context, at-start-of-class flag,
open group depth, current offset, remaining input. -/
def scan : Nat → Bool → Bool → Nat → Nat → Str → Except Err (List Token)
  | 0, _, _, _, pos, _ => .error (.lexError pos)
  | fuel + 1, inClass, atStart, depth, pos, l =>
      match l with
      | [] =>
          if inClass then .error (.lexError pos)
          else if depth ≠ 0 then .error (.lexError pos)
          else .ok []
      | c :: rest =>
          if c = '\\' then
            match rest with
            | [] => .error (.lexError pos)
            | c2 :: rest2 =>
                (scan fuel inClass false depth (pos + 2) rest2).map
                  (.escaped c2 :: ·)
          else if inClass then
            if c = ']' then
              (scan fuel false false depth (pos + 1) rest).map
                (.classClose :: ·)
            else if c = '-' then
              if atStart || rest.head? == some ']' || rest.isEmpty then
                (scan fuel true false depth (pos + 1) rest).map
                  (.literal '-' :: ·)
              else
                (scan fuel true false depth (pos + 1) rest).map
                  (.classRangeDash :: ·)
            else
              (scan fuel true false depth (pos + 1) rest).map
                (.literal c :: ·)
          else if c = '*' then
            match rest with
            | '(' :: rest2 =>
                (scan fuel false false (depth + 1) (pos + 2) rest2).map
                  (.groupOpen .zeroOrMore :: ·)
            | '*' :: rest2 =>
                (scan fuel false false depth (pos + 2) rest2).map
                  (.anySeqAll :: ·)
            | r => (scan fuel false false depth (pos + 1) r).map
                (.anySeq :: ·)
          else if c = '?' then
            match rest with
            | '(' :: rest2 =>
                (scan fuel false false (depth + 1) (pos + 2) rest2).map
                  (.groupOpen .zeroOrOne :: ·)
            | r => (scan fuel false false depth (pos + 1) r).map
                (.anyOne :: ·)
          else if c = '@' then
            match rest with
            | '(' :: rest2 =>
                (scan fuel false false (depth + 1) (pos + 2) rest2).map
                  (.groupOpen .oneOf :: ·)
            | r => (scan fuel false false depth (pos + 1) r).map
                (.literal '@' :: ·)
          else if c = '+' then
            match rest with
            | '(' :: rest2 =>
                (scan fuel false false (depth + 1) (pos + 2) rest2).map
                  (.groupOpen .oneOrMore :: ·)
            | r => (scan fuel false false depth (pos + 1) r).map
                (.literal '+' :: ·)
          else if c = '(' then
            (scan fuel false false (depth + 1) (pos + 1) rest).map
              (.groupOpen .oneOf :: ·)
          else if c = ')' then
            match depth with
            | 0 => .error (.lexError pos)
            | d + 1 =>
                (scan fuel false false d (pos + 1) rest).map
                  (.groupClose :: ·)
          else if c = '[' then
            match rest with
            | ']' :: _ => .error (.lexError pos)
            | '!' :: ']' :: _ => .error (.lexError pos)
            | '!' :: rest2 =>
                (scan fuel true true depth (pos + 2) rest2).map
                  (fun ts => .classOpen :: .classNegate :: ts)
            | r => (scan fuel true true depth (pos + 1) r).map
                (.classOpen :: ·)
          else if c = ',' ∨ c = '|' then
            if depth ≠ 0 then
              (scan fuel false false depth (pos + 1) rest).map
                (.alternator :: ·)
            else
              (scan fuel false false depth (pos + 1) rest).map
                (.literal c :: ·)
          else
            (scan fuel false false depth (pos + 1) rest).map
              (.literal c :: ·)

/-! ## Parser

Modelled from the spec: the recursive-descent Parser of §4.2 (`syntax`
package, not in the given sources). `parseSeq` accumulates nodes until a
group-close, alternator, or end of input; `parseAlts` collects
alternatives separated by alternator tokens up to the matching close.
The `fuel` argument is a modelling artifact for termination only; the
top-level entry point supplies ample fuel (the spec mandates no
recursion-depth cap; every claim about parsing is conditioned on, or
exhibits, a successful run). -/
def classTokChar : Token → Option Char
  | .literal c => some c
  | .escaped c => some c
  | _ => none

def parseClassBody : List Token → Except Err (List (Char × Char) × List Token)
  | .classClose :: rest => .ok ([], rest)
  | t :: .classRangeDash :: t2 :: rest =>
      match classTokChar t, classTokChar t2 with
      | some c, some c2 =>
          if c ≤ c2 then
            (parseClassBody rest).map (fun pr => ((c, c2) :: pr.1, pr.2))
          else .error .parseError
      | _, _ => .error .parseError
  | t :: rest =>
      match classTokChar t with
      | some c => (parseClassBody rest).map (fun pr => ((c, c) :: pr.1, pr.2))
      | none => .error .parseError
  | [] => .error .parseError

mutual
def parseSeq : Nat → List Token → Except Err (List Node × List Token)
  | 0, _ => .error .parseError
  | fuel + 1, toks =>
      match toks with
      | [] => .ok ([], [])
      | .groupClose :: _ => .ok ([], toks)
      | .alternator :: _ => .ok ([], toks)
      | .literal c :: rest =>
          (parseSeq fuel rest).map (fun pr => (.literal c :: pr.1, pr.2))
      | .escaped c :: rest =>
          (parseSeq fuel rest).map (fun pr => (.literal c :: pr.1, pr.2))
      | .anyOne :: rest =>
          (parseSeq fuel rest).map (fun pr => (.anyOne :: pr.1, pr.2))
      | .anySeq :: rest =>
          (parseSeq fuel rest).map
            (fun pr => (.anySequence false :: pr.1, pr.2))
      | .anySeqAll :: rest =>
          (parseSeq fuel rest).map
            (fun pr => (.anySequence true :: pr.1, pr.2))
      | .classOpen :: .classNegate :: rest => do
          let (rs, rem) ← parseClassBody rest
          let (ns, rem2) ← parseSeq fuel rem
          .ok (.charClass rs true :: ns, rem2)
      | .classOpen :: rest => do
          let (rs, rem) ← parseClassBody rest
          let (ns, rem2) ← parseSeq fuel rem
          .ok (.charClass rs false :: ns, rem2)
      | .groupOpen k :: rest => do
          let (alts, rem) ← parseAlts fuel rest
          let (ns, rem2) ← parseSeq fuel rem
          .ok (.group k alts :: ns, rem2)
      | .classClose :: _ => .error .parseError
      | .classNegate :: _ => .error .parseError
      | .classRangeDash :: _ => .error .parseError

def parseAlts : Nat → List Token → Except Err (List (List Node) × List Token)
  | 0, _ => .error .parseError
  | fuel + 1, toks => do
      let (ns, rem) ← parseSeq fuel toks
      match rem with
      | .alternator :: rest => do
          let (alts, rem2) ← parseAlts fuel rest
          .ok (ns :: alts, rem2)
      | .groupClose :: rest => .ok ([ns], rest)
      | _ => .error .parseError
end

/-- Modelled from the spec: `syntax.Parse` — scan then parse, producing
the root sequence (§2, §4.1–4.2). -/
def parse (pattern : Str) : Except Err (List Node) := do
  let toks ← scan (pattern.length + 1) false false 0 0 pattern
  let (ns, rem) ← parseSeq (2 * toks.length + 2) toks
  match rem with
  | [] => .ok ns
  | _ => .error .parseError

/-! ## Execution engines and the facade

The facade is translated from `glob.go`. The engines themselves are
external collaborators (§6): an engine handle holds the compiled pattern
(kept abstract as its regex AST) together with the number of capturing
groups in it (PCRE's `Matcher.Groups`); `matchWhole` is the derivative
matcher, and group extraction is a greedy backtracking search modelled on
PCRE (§6: `EngineHandle.groups`, group 0 = whole match). -/
structure EngineHandle where
  re : Regex
  numGroups : Nat
deriving Repr, DecidableEq

/-- Syntactic size of a regex, used to provision backtracking fuel. -/
def Regex.size : Regex → Nat
  | .eps => 1
  | .cls _ _ => 1
  | .cat a b => a.size + b.size + 1
  | .alt a b => a.size + b.size + 1
  | .star r => r.size + 1
  | .grp _ r => r.size + 1

/-- Capture assignments: group number to captured substring. -/
abbrev Caps := List (Nat × Str)

/-- Modelled from the spec: the backtracking search of the Extended engine
(§6). `bt fuel r s` enumerates, in the engine's preference order
(alternatives left to right, repetition greedy and consuming at each
step), the ways `r` can match a prefix of `s`, each with its group
captures and the remaining suffix. `fuel` is a termination artifact;
the facade supplies ample fuel. -/
def bt : Nat → Regex → Str → List (Caps × Str)
  | 0, _, _ => []
  | _ + 1, .eps, s => [([], s)]
  | _ + 1, .cls _ _, [] => []
  | _ + 1, .cls ranges neg, c :: s =>
      if inCls c ranges neg then [([], s)] else []
  | fuel + 1, .cat a b, s =>
      (bt fuel a s).flatMap fun pr =>
        (bt fuel b pr.2).map fun pr2 => (pr.1 ++ pr2.1, pr2.2)
  | fuel + 1, .alt a b, s => bt fuel a s ++ bt fuel b s
  | fuel + 1, .star r, s =>
      ((bt fuel r s).filter fun pr => pr.2.length < s.length).flatMap
        (fun pr => (bt fuel (.star r) pr.2).map
          fun pr2 => (pr.1 ++ pr2.1, pr2.2))
      ++ [([], s)]
  | fuel + 1, .grp n r, s =>
      (bt fuel r s).map fun pr =>
        (pr.1 ++ [(n, s.take (s.length - pr.2.length))], pr.2)

/-- Modelled from the spec: `EngineHandle.groups` (§6) — on a whole-string
match, the ordered captures: index 0 the whole match, then each group's
captured text (the last assignment of a repeated group wins, empty when
the group did not participate). Returns the empty sequence when the
pattern does not match. -/
def EngineHandle.groups (h : EngineHandle) (s : Str) : List Str :=
  if rmatch h.re s then
    let caps : Caps :=
      ((((bt ((s.length + 1) * (h.re.size + 1)) h.re s).filter
        (fun pr => pr.2.isEmpty)).head?).map (fun pr => pr.1)).getD []
    (List.range (h.numGroups + 1)).map fun i =>
      if i = 0 then s else ((caps.reverse).lookup i).getD []
  else []

/-- The compiled glob of `glob.go`: exactly one of the engine fields is
set by a successful `Compile` (`r` for the Go `regexp` engine, `p` for
PCRE); `none`/`none` corresponds to the zero value whose use would
dereference a nil pointer. -/
structure Glob where
  r : Option EngineHandle
  p : Option EngineHandle
deriving Repr, DecidableEq

/-- `Glob.Match` from `glob.go`: use the regexp engine when present,
otherwise the PCRE matcher. `none` models the nil-pointer panic when
neither engine is present; both engines implement the whole-string match
of §6 (`matchWhole`). -/
def Glob.Match (g : Glob) (fixture : Str) : Option Bool :=
  match g.r with
  | some h => some (rmatch h.re fixture)
  | none =>
      match g.p with
      | some h => some (rmatch h.re fixture)
      | none => none

/-- `Glob.Capture` from `glob.go`: the regexp branch returns the
submatches of the whole-string match (`FindStringSubmatch`: empty when no
match); the PCRE branch returns, when the input matches, the group
strings `0..num`; `none` again models the nil-pointer panic. -/
def Glob.Capture (g : Glob) (fixture : Str) : Option (List Str) :=
  match g.r with
  | some h => some (h.groups fixture)
  | none =>
      match g.p with
      | some h => some (h.groups fixture)
      | none => none

/-- `Compile` from `glob.go`, with its output trace: parse, generate,
print the two debug lines (`fmt.Println`), then hand the generated
pattern to the engine selected by the analyzer. The second printed line's
regex payload is elided (its textual rendering belongs to the engine
dialect's concrete syntax, which this model keeps abstract); what matters
is that a successful pipeline run writes two lines to standard output.
Engine compilation of a generated pattern never fails in the model (the
generated AST is well-formed by construction), matching §7 where an
`EngineError` indicates a generator/engine contract bug. -/
def compileOut (pattern : Str) (separators : List Char) :
    Except Err Glob × List String :=
  match parse pattern with
  | .error e => (.error e, [])
  | .ok tree =>
      let re := (genSeq separators tree 1).1
      let nxt := (genSeq separators tree 1).2
      let printed : List String :=
        ["pattern: " ++ String.mk pattern,
         "regexp: " ++
           (match analyze tree with
            | .regexpTag => "Regexp"
            | .pcreTag => "PCRE")]
      match analyze tree with
      | .regexpTag =>
          (.ok { r := some ⟨re, nxt - 1⟩, p := none }, printed)
      | .pcreTag =>
          (.ok { r := none, p := some ⟨re, nxt - 1⟩ }, printed)

/-- `Compile` from `glob.go`, as the value it returns. -/
def compile (pattern : Str) (separators : List Char) : Except Err Glob :=
  (compileOut pattern separators).1

/-- `MustCompile` from `glob.go`: return the compiled glob when `Compile`
succeeds; the error branch models `panic(err)` with the error `Compile`
produced. -/
def mustCompile (pattern : Str) (separators : List Char) :
    Except Err Glob :=
  match compile pattern separators with
  | .ok g => .ok g
  | .error e => .error e

/-- Modelled from the spec: `syntax.Special` (not in the given sources) —
the glob meta-characters, per the grammar of §6, the scanner rules of
§4.1 (class internals and alternators included), and the brace
alternatives listed in the `Compile` doc comment. All are ASCII, as the
`QuoteMeta` comment in `glob.go` requires. -/
def Special (c : Char) : Bool :=
  c ∈ ['\\', '*', '?', '[', ']', '{', '}', '(', ')', '@', '+', '|', ',',
       '!', '-']

/-- `QuoteMeta` from `glob.go`: escape every special character with a
backslash. (The Go original loops over bytes; since all special
characters are ASCII, the byte loop and this character map agree.) -/
def QuoteMeta (s : Str) : Str :=
  s.flatMap fun c => if Special c then ['\\', c] else [c]

/-- The token stream of a quoted string: every special character arrives
escaped, every other character as a plain literal. -/
def quoteToks (s : Str) : List Token :=
  s.map fun c => if Special c then .escaped c else .literal c

/-- The glob compiled from the pattern `**` (independent of the
separator set). -/
def gDoubleStar : Glob :=
  ⟨some ⟨.cat (.star (.cls [] true)) .eps, 0⟩, none⟩

/-- The glob compiled from the pattern `*` for a given separator set. -/
def gSingleStar (separators : List Char) : Glob :=
  ⟨some ⟨.cat (.star (sepClass separators)) .eps, 0⟩, none⟩

/-- The glob compiled from `QuoteMeta s`: the Basic engine over the
all-literal tree. -/
def quoteGlob (s : Str) (separators : List Char) : Glob :=
  ⟨some ⟨(genSeq separators (s.map .literal) 1).1,
         (genSeq separators (s.map .literal) 1).2 - 1⟩, none⟩

/-! ### Inversion lemmas for the language semantics -/

theorem rlang_eps_inv {s : Str} (h : RLang .eps s) : s = [] := by
  cases h; rfl

theorem rlang_cls_inv {ranges neg} {s : Str}
    (h : RLang (.cls ranges neg) s) :
    ∃ c, s = [c] ∧ inCls c ranges neg = true := by
  cases h with
  | cls hc => exact ⟨_, rfl, hc⟩

theorem rlang_cat_inv {a b} {s : Str} (h : RLang (.cat a b) s) :
    ∃ s1 s2, s = s1 ++ s2 ∧ RLang a s1 ∧ RLang b s2 := by
  cases h with
  | cat h1 h2 => exact ⟨_, _, rfl, h1, h2⟩

theorem rlang_alt_inv {a b} {s : Str} (h : RLang (.alt a b) s) :
    RLang a s ∨ RLang b s := by
  cases h with
  | altL h1 => exact Or.inl h1
  | altR h2 => exact Or.inr h2

theorem rlang_grp_inv {n r} {s : Str} (h : RLang (.grp n r) s) :
    RLang r s := by
  cases h with
  | grp h1 => exact h1

theorem rlang_emp_inv {s : Str} (h : RLang .emp s) : False := by
  obtain ⟨c, _, hc⟩ := rlang_cls_inv h
  simp [inCls] at hc

/-- Eliminator for star membership: any property holding of `[]` and closed
under prepending one `r`-chunk holds of every string in `star r`. -/
theorem rlang_star_elim {P : Str → Prop} {q : Regex}
    (h0 : P [])
    (h1 : ∀ s1 s2, RLang q s1 → RLang (.star q) s2 → P s2 → P (s1 ++ s2)) :
    ∀ (u : Str), RLang (.star q) u → P u := by
  suffices h : ∀ r u, RLang r u → r = .star q → P u by
    intro u hu; exact h _ u hu rfl
  intro r u hu
  induction hu with
  | starNil => intro _; exact h0
  | starCons hs hstar ih1 ih2 =>
      intro he
      cases he
      exact h1 _ _ hs hstar (ih2 rfl)
  | eps => intro he; cases he
  | cls _ => intro he; cases he
  | cat _ _ _ _ => intro he; cases he
  | altL _ _ => intro he; cases he
  | altR _ _ => intro he; cases he
  | grp _ _ => intro he; cases he

/-- A nonempty string in `star q` splits off a nonempty first `q`-chunk. -/
theorem rlang_star_cons_split {q : Regex} {c : Char} {s : Str}
    (h : RLang (.star q) (c :: s)) :
    ∃ s1 s2, s = s1 ++ s2 ∧ RLang q (c :: s1) ∧ RLang (.star q) s2 := by
  have main : ∀ u, RLang (.star q) u → ∀ c s, u = c :: s →
      ∃ s1 s2, s = s1 ++ s2 ∧ RLang q (c :: s1) ∧ RLang (.star q) s2 := by
    intro u hu
    refine rlang_star_elim (P := fun u => ∀ c s, u = c :: s →
      ∃ s1 s2, s = s1 ++ s2 ∧ RLang q (c :: s1) ∧ RLang (.star q) s2)
      ?_ ?_ u hu
    · intro c s he; cases he
    · intro s1 s2 hq hstar ih c s he
      cases s1 with
      | nil => exact ih c s he
      | cons c1 s1' =>
          simp only [List.cons_append] at he
          obtain ⟨he1, he2⟩ := List.cons.injEq .. ▸ he
          refine ⟨s1', s2, he2.symm, ?_, hstar⟩
          rw [he1] at hq; exact hq
  exact main _ h c s rfl

/-! ### Correctness of the derivative matcher -/

theorem nullable_iff {r : Regex} : r.nullable = true ↔ RLang r [] := by
  induction r with
  | eps => simp [Regex.nullable]; exact .eps
  | cls ranges neg =>
      simp [Regex.nullable]
      intro h
      obtain ⟨c, hc, _⟩ := rlang_cls_inv h
      cases hc
  | cat a b iha ihb =>
      simp only [Regex.nullable, Bool.and_eq_true]
      constructor
      · rintro ⟨ha, hb⟩
        have := RLang.cat (iha.mp ha) (ihb.mp hb)
        simpa using this
      · intro h
        obtain ⟨s1, s2, hs, h1, h2⟩ := rlang_cat_inv h
        obtain ⟨e1, e2⟩ := List.append_eq_nil.mp hs.symm
        subst e1; subst e2
        exact ⟨iha.mpr h1, ihb.mpr h2⟩
  | alt a b iha ihb =>
      simp only [Regex.nullable, Bool.or_eq_true]
      constructor
      · rintro (ha | hb)
        · exact .altL (iha.mp ha)
        · exact .altR (ihb.mp hb)
      · intro h
        rcases rlang_alt_inv h with h1 | h2
        · exact Or.inl (iha.mpr h1)
        · exact Or.inr (ihb.mpr h2)
  | star r ih => simp [Regex.nullable]; exact .starNil
  | grp n r ih =>
      simp only [Regex.nullable]
      constructor
      · intro h; exact .grp (ih.mp h)
      · intro h; exact ih.mpr (rlang_grp_inv h)

theorem deriv_iff {r : Regex} {c : Char} {s : Str} :
    RLang (r.deriv c) s ↔ RLang r (c :: s) := by
  induction r generalizing s with
  | eps =>
      simp only [Regex.deriv]
      constructor
      · intro h; exact absurd h rlang_emp_inv
      · intro h; cases rlang_eps_inv h
  | cls ranges neg =>
      simp only [Regex.deriv]
      by_cases hc : inCls c ranges neg = true
      · rw [if_pos hc]
        constructor
        · intro h; rw [rlang_eps_inv h]; exact .cls hc
        · intro h
          obtain ⟨c', hc', _⟩ := rlang_cls_inv h
          obtain ⟨e1, e2⟩ := List.cons.injEq .. ▸ hc'
          rw [e2]; exact .eps
      · rw [if_neg hc]
        constructor
        · intro h; exact absurd h rlang_emp_inv
        · intro h
          obtain ⟨c', hc', hin⟩ := rlang_cls_inv h
          obtain ⟨e1, e2⟩ := List.cons.injEq .. ▸ hc'
          exact absurd (e1 ▸ hin) hc
  | cat a b iha ihb =>
      simp only [Regex.deriv]
      by_cases hn : a.nullable
      · rw [if_pos hn]
        constructor
        · intro h
          rcases rlang_alt_inv h with h1 | h2
          · obtain ⟨s1, s2, hs, hd, hb2⟩ := rlang_cat_inv h1
            subst hs
            have := RLang.cat (iha.mp hd) hb2
            simpa using this
          · have ha0 : RLang a [] := nullable_iff.mp hn
            have := RLang.cat ha0 (ihb.mp h2)
            simpa using this
        · intro h
          obtain ⟨s1, s2, hs, h1, h2⟩ := rlang_cat_inv h
          cases s1 with
          | nil =>
              simp only [List.nil_append] at hs
              subst hs
              exact .altR (ihb.mpr h2)
          | cons c1 s1' =>
              simp only [List.cons_append] at hs
              obtain ⟨e1, e2⟩ := List.cons.injEq .. ▸ hs
              subst e1
              refine .altL ?_
              have := RLang.cat (iha.mpr h1) h2
              rw [e2]; exact this
      · rw [if_neg hn]
        constructor
        · intro h
          obtain ⟨s1, s2, hs, hd, hb2⟩ := rlang_cat_inv h
          subst hs
          have := RLang.cat (iha.mp hd) hb2
          simpa using this
        · intro h
          obtain ⟨s1, s2, hs, h1, h2⟩ := rlang_cat_inv h
          cases s1 with
          | nil =>
              exact absurd (nullable_iff.mpr h1) (by simpa using hn)
          | cons c1 s1' =>
              simp only [List.cons_append] at hs
              obtain ⟨e1, e2⟩ := List.cons.injEq .. ▸ hs
              subst e1
              have := RLang.cat (iha.mpr h1) h2
              rw [e2]; exact this
  | alt a b iha ihb =>
      simp only [Regex.deriv]
      constructor
      · intro h
        rcases rlang_alt_inv h with h1 | h2
        · exact .altL (iha.mp h1)
        · exact .altR (ihb.mp h2)
      · intro h
        rcases rlang_alt_inv h with h1 | h2
        · exact .altL (iha.mpr h1)
        · exact .altR (ihb.mpr h2)
  | star r ih =>
      simp only [Regex.deriv]
      constructor
      · intro h
        obtain ⟨s1, s2, hs, hd, hstar⟩ := rlang_cat_inv h
        subst hs
        have hr : RLang r (c :: s1) := ih.mp hd
        have := RLang.starCons hr hstar
        simpa using this
      · intro h
        obtain ⟨s1, s2, hs, hr, hstar⟩ := rlang_star_cons_split h
        subst hs
        exact .cat (ih.mpr hr) hstar
  | grp n r ih =>
      simp only [Regex.deriv]
      constructor
      · intro h; exact .grp (ih.mp h)
      · intro h; exact ih.mpr (rlang_grp_inv h)

/-- The derivative matcher decides the language semantics. -/
theorem rmatch_iff {r : Regex} {s : Str} : rmatch r s = true ↔ RLang r s := by
  induction s generalizing r with
  | nil => simpa [rmatch] using nullable_iff
  | cons c s ih => simpa [rmatch] using (ih.trans deriv_iff)

theorem seqHasGroupB_iff {tree : List Node} :
    seqHasGroupB tree = true ↔ TreeHasGroup tree := by
  induction tree with
  | nil =>
      simp only [seqHasGroupB]
      constructor
      · intro h; cases h
      · intro h; cases h
  | cons n ns ih =>
      simp only [seqHasGroupB, Bool.or_eq_true]
      constructor
      · rintro (h | h)
        · cases n with
          | group k alts => exact .head
          | literal c => simp [Node.hasGroupB] at h
          | anyOne => simp [Node.hasGroupB] at h
          | anySequence a => simp [Node.hasGroupB] at h
          | charClass r g => simp [Node.hasGroupB] at h
        · exact .tail (ih.mp h)
      · intro h
        cases h with
        | head => exact Or.inl rfl
        | tail h2 => exact Or.inr (ih.mpr h2)
        | deep hmem hdeep => exact Or.inl rfl

/-! ### Helper lemmas about generated classes -/

theorem inCls_single {c' c : Char} : inCls c' [(c, c)] false = true ↔ c' = c := by
  constructor
  · intro h
    simp only [inCls, List.any_cons, List.any_nil, Bool.or_false,
      bne_iff_ne, ne_eq, Bool.not_eq_false, Bool.and_eq_true,
      decide_eq_true_eq] at h
    exact le_antisymm h.2 h.1
  · rintro rfl
    simp [inCls]

theorem inCls_sepClass {c : Char} {seps : List Char} :
    inCls c (seps.map fun x => (x, x)) true = true ↔ c ∉ seps := by
  simp only [inCls, bne_iff_ne, ne_eq, Bool.not_eq_true, List.any_eq_false,
    List.mem_map]
  constructor
  · intro h hc
    have := h (c, c) ⟨c, hc, rfl⟩
    simp at this
  · rintro h p ⟨x, hx, rfl⟩
    by_contra hb
    rw [Bool.not_eq_false, Bool.and_eq_true, decide_eq_true_eq,
      decide_eq_true_eq] at hb
    dsimp only at hb
    exact h (by rwa [le_antisymm hb.1 hb.2] at hx)

theorem inCls_univ {c : Char} : inCls c [] true = true := by
  simp [inCls]

/-- A star of a one-character class matches exactly the strings whose
characters all satisfy the class. -/
theorem rlang_star_cls {ranges neg} {u : Str}
    (h : ∀ c ∈ u, inCls c ranges neg = true) :
    RLang (.star (.cls ranges neg)) u := by
  induction u with
  | nil => exact .starNil
  | cons c rest ih =>
      have : RLang (.star (.cls ranges neg)) ([c] ++ rest) :=
        .starCons (.cls (h c (by simp))) (ih fun x hx => h x (by simp [hx]))
      simpa using this

theorem rlang_star_cls_inv {ranges neg} {u : Str}
    (h : RLang (.star (.cls ranges neg)) u) :
    ∀ c ∈ u, inCls c ranges neg = true := by
  refine rlang_star_elim (P := fun u => ∀ c ∈ u, inCls c ranges neg = true)
    ?_ ?_ u h
  · intro c hc; cases hc
  · intro s1 s2 h1 _ ih c hc
    obtain ⟨c', he, hin⟩ := rlang_cls_inv h1
    subst he
    rcases List.mem_append.mp hc with hl | hr
    · rcases List.mem_singleton.mp hl with rfl
      exact hin
    · exact ih c hr

/-- A one-character regex followed by the rest of a concatenation. -/
theorem rlang_cat_cons {r rest : Regex} {c : Char} {s : Str}
    (h1 : RLang r [c]) (h2 : RLang rest s) : RLang (.cat r rest) (c :: s) := by
  have := RLang.cat h1 h2
  simpa using this

/-- An empty-matching regex followed by the rest of a concatenation. -/
theorem rlang_cat_eps_left {r rest : Regex} {s : Str}
    (h1 : RLang r []) (h2 : RLang rest s) : RLang (.cat r rest) s := by
  have := RLang.cat h1 h2
  simpa using this

/-! ### Generator correctness -/

/-- Membership in a generated alternation, from membership in the list of
alternatives (the numbering counter is irrelevant to the language). -/
theorem rlang_genAlts_of_mem {seps : List Char} {alts : List (List Node)}
    {alt : List Node} {s : Str} (hm : alt ∈ alts)
    (hs : ∀ k, RLang (genSeq seps alt k).1 s) :
    ∀ m, RLang (genAlts seps alts m).1 s := by
  induction alts with
  | nil => cases hm
  | cons a rest ih =>
      intro m
      cases rest with
      | nil =>
          rcases List.mem_singleton.mp hm with rfl
          simpa [genAlts] using hs m
      | cons b rest' =>
          rcases List.mem_cons.mp hm with rfl | hm'
          · exact .altL (hs m)
          · exact .altR (ih hm' _)

/-- A string in a generated alternation comes from one of the
alternatives. -/
theorem genAlts_inv {seps : List Char} {alts : List (List Node)} {s : Str} :
    ∀ m, RLang (genAlts seps alts m).1 s →
    ∃ alt ∈ alts, ∃ k, RLang (genSeq seps alt k).1 s := by
  induction alts with
  | nil =>
      intro m h
      simp only [genAlts] at h
      exact absurd h rlang_emp_inv
  | cons a rest ih =>
      intro m h
      cases rest with
      | nil =>
          simp only [genAlts] at h
          exact ⟨a, by simp, m, h⟩
      | cons b rest' =>
          simp only [genAlts] at h
          rcases rlang_alt_inv h with h1 | h2
          · exact ⟨a, by simp, _, h1⟩
          · obtain ⟨alt, hm, k, hk⟩ := ih _ h2
            exact ⟨alt, by simp [hm], k, hk⟩

/-- Completeness of the generator: a sequence that matches under the glob
semantics is matched by the generated regex (at any group counter). -/
theorem genSeq_complete {seps : List Char} {ts : List Node} {s : Str}
    (h : SeqMatches seps ts s) : ∀ n, RLang (genSeq seps ts n).1 s := by
  induction h with
  | nil => intro n; exact .eps
  | @literal c ns s _ ih =>
      intro n
      exact rlang_cat_cons (.cls (inCls_single.mpr rfl)) (ih n)
  | @anyOne c ns s hc _ ih =>
      intro n
      exact rlang_cat_cons (.cls (inCls_sepClass.mpr hc)) (ih n)
  | @anySeq across ns s1 s2 hall _ ih =>
      intro n
      cases across with
      | true =>
          simp only [genSeq, genNode, if_true]
          exact .cat (rlang_star_cls fun c _ => inCls_univ) (ih n)
      | false =>
          simp only [genSeq, genNode, if_false]
          exact .cat
            (rlang_star_cls fun c hc => inCls_sepClass.mpr (hall rfl c hc))
            (ih n)
  | @charClass c ranges neg ns s hc _ ih =>
      intro n
      exact rlang_cat_cons (.cls hc) (ih n)
  | @groupOneOf alts alt ns s1 s2 hm _ _ ih1 ih2 =>
      intro n
      exact .cat (.grp (rlang_genAlts_of_mem hm ih1 _)) (ih2 _)
  | @groupZeroOneNone alts ns s _ ih =>
      intro n
      exact rlang_cat_eps_left (.altR .eps) (ih _)
  | @groupZeroOneSome alts alt ns s1 s2 hm _ _ ih1 ih2 =>
      intro n
      exact .cat (.altL (.grp (rlang_genAlts_of_mem hm ih1 _))) (ih2 _)
  | @groupZeroMoreNone alts ns s _ ih =>
      intro n
      exact rlang_cat_eps_left .starNil (ih _)
  | @groupZeroMoreCons alts alt ns s1 s2 hm _ _ ih1 ih2 =>
      intro n
      obtain ⟨u, v, huv, hstar, hrest⟩ := rlang_cat_inv (ih2 n)
      subst huv
      have : RLang (genSeq seps (.group .zeroOrMore alts :: ns) n).1
          ((s1 ++ u) ++ v) :=
        .cat (.starCons (.grp (rlang_genAlts_of_mem hm ih1 _)) hstar) hrest
      simpa [List.append_assoc] using this
  | @groupOneMoreLast alts alt ns s1 s2 hm _ _ ih1 ih2 =>
      intro n
      have hg : RLang (.cat (.grp n (genAlts seps alts (n + 1)).1)
          (.star (.grp n (genAlts seps alts (n + 1)).1))) (s1 ++ []) :=
        .cat (.grp (rlang_genAlts_of_mem hm ih1 _)) .starNil
      have : RLang (genSeq seps (.group .oneOrMore alts :: ns) n).1
          ((s1 ++ []) ++ s2) := .cat hg (ih2 _)
      simpa using this
  | @groupOneMoreCons alts alt ns s1 s2 hm _ _ ih1 ih2 =>
      intro n
      obtain ⟨u, v, huv, hfirst, hrest⟩ := rlang_cat_inv (ih2 n)
      subst huv
      obtain ⟨u1, u2, hu, hg1, hstar⟩ := rlang_cat_inv hfirst
      subst hu
      have hg : RLang (.cat (.grp n (genAlts seps alts (n + 1)).1)
          (.star (.grp n (genAlts seps alts (n + 1)).1)))
          (s1 ++ (u1 ++ u2)) :=
        .cat (.grp (rlang_genAlts_of_mem hm ih1 _)) (.starCons hg1 hstar)
      have : RLang (genSeq seps (.group .oneOrMore alts :: ns) n).1
          ((s1 ++ (u1 ++ u2)) ++ v) := .cat hg hrest
      simpa [List.append_assoc] using this

/-- Soundness of the generator: a string matched by the generated regex
matches the sequence under the glob semantics. -/
theorem genSeq_sound (seps : List Char) :
    ∀ (ts : List Node) (n : Nat) (s : Str),
      RLang (genSeq seps ts n).1 s → SeqMatches seps ts s
  | [], _, s, h => by
      simp only [genSeq] at h
      rw [rlang_eps_inv h]
      exact .nil
  | .literal c :: ns, n, s, h => by
      simp only [genSeq, genNode] at h
      obtain ⟨s1, s2, hs, h1, h2⟩ := rlang_cat_inv h
      subst hs
      have hrest : SeqMatches seps ns s2 := genSeq_sound seps ns _ s2 h2
      obtain ⟨c', he, hin⟩ := rlang_cls_inv h1
      subst he
      rcases inCls_single.mp hin with rfl
      exact .literal hrest
  | .anyOne :: ns, n, s, h => by
      simp only [genSeq, genNode] at h
      obtain ⟨s1, s2, hs, h1, h2⟩ := rlang_cat_inv h
      subst hs
      have hrest : SeqMatches seps ns s2 := genSeq_sound seps ns _ s2 h2
      obtain ⟨c, he, hin⟩ := rlang_cls_inv h1
      subst he
      exact .anyOne (inCls_sepClass.mp hin) hrest
  | .anySequence across :: ns, n, s, h => by
      simp only [genSeq, genNode] at h
      obtain ⟨s1, s2, hs, h1, h2⟩ := rlang_cat_inv h
      subst hs
      have hrest : SeqMatches seps ns s2 := genSeq_sound seps ns _ s2 h2
      cases across with
      | true =>
          exact .anySeq (fun hf => nomatch hf) hrest
      | false =>
          rw [if_neg (by simp)] at h1
          have hall := rlang_star_cls_inv h1
          exact .anySeq (fun _ c hc => inCls_sepClass.mp (hall c hc)) hrest
  | .charClass ranges neg :: ns, n, s, h => by
      simp only [genSeq, genNode] at h
      obtain ⟨s1, s2, hs, h1, h2⟩ := rlang_cat_inv h
      subst hs
      have hrest : SeqMatches seps ns s2 := genSeq_sound seps ns _ s2 h2
      obtain ⟨c, he, hin⟩ := rlang_cls_inv h1
      subst he
      exact .charClass hin hrest
  | .group gk alts :: ns, n, s, h => by
      simp only [genSeq, genNode] at h
      obtain ⟨s1, s2, hs, h1, h2⟩ := rlang_cat_inv h
      subst hs
      have hrest : SeqMatches seps ns s2 := genSeq_sound seps ns _ s2 h2
      cases gk with
      | oneOf =>
          obtain ⟨alt, hm, k, hk⟩ := genAlts_inv _ (rlang_grp_inv h1)
          exact .groupOneOf hm (genSeq_sound seps alt k s1 hk) hrest
      | zeroOrOne =>
          rcases rlang_alt_inv h1 with hg | he
          · obtain ⟨alt, hm, k, hk⟩ := genAlts_inv _ (rlang_grp_inv hg)
            exact .groupZeroOneSome hm (genSeq_sound seps alt k s1 hk) hrest
          · rw [rlang_eps_inv he]
            exact .groupZeroOneNone hrest
      | zeroOrMore =>
          refine rlang_star_elim (P := fun u =>
            SeqMatches seps (.group .zeroOrMore alts :: ns) (u ++ s2))
            ?_ ?_ s1 h1
          · exact .groupZeroMoreNone hrest
          · intro u1 u2 hq _ ihP
            obtain ⟨alt, hm, k, hk⟩ := genAlts_inv _ (rlang_grp_inv hq)
            have halt := genSeq_sound seps alt k u1 hk
            have := SeqMatches.groupZeroMoreCons hm halt ihP
            simpa [List.append_assoc] using this
      | oneOrMore =>
          obtain ⟨u, v, huv, hg, hstar⟩ := rlang_cat_inv h1
          subst huv
          obtain ⟨alt, hm, k, hk⟩ := genAlts_inv _ (rlang_grp_inv hg)
          have haltu := genSeq_sound seps alt k u hk
          have main : ∀ w, RLang (.star (.grp n
              (genAlts seps alts (n + 1)).1)) w →
              ∀ u', (∃ a ∈ alts, SeqMatches seps a u') →
              SeqMatches seps (.group .oneOrMore alts :: ns)
                (u' ++ (w ++ s2)) := by
            intro w hw
            refine rlang_star_elim (P := fun w =>
              ∀ u', (∃ a ∈ alts, SeqMatches seps a u') →
              SeqMatches seps (.group .oneOrMore alts :: ns)
                (u' ++ (w ++ s2))) ?_ ?_ w hw
            · rintro u' ⟨a, hma, hsa⟩
              have := SeqMatches.groupOneMoreLast hma hsa hrest
              simpa using this
            · rintro w1 w2 hq _ ihP u' ⟨a, hma, hsa⟩
              obtain ⟨a2, hma2, k2, hk2⟩ :=
                genAlts_inv _ (rlang_grp_inv hq)
              have ha2 := genSeq_sound seps a2 k2 w1 hk2
              have hrec := ihP w1 ⟨a2, hma2, ha2⟩
              have := SeqMatches.groupOneMoreCons hma hsa hrec
              simpa [List.append_assoc] using this
          have := main v hstar u ⟨alt, hm, haltu⟩
          simpa [List.append_assoc] using this
termination_by ts _ _ _ => sizeOf ts
decreasing_by
all_goals simp_wf
all_goals first
  | omega
  | (have hlt := List.sizeOf_lt_of_mem ‹_ ∈ _›
     omega)

/-! ## Infrastructure lemmas for the claims -/

theorem rlang_cat_eps_right {q : Regex} {s : Str} :
    RLang (.cat q .eps) s ↔ RLang q s := by
  constructor
  · intro h
    obtain ⟨s1, s2, hs, h1, h2⟩ := rlang_cat_inv h
    rw [rlang_eps_inv h2] at hs
    simpa [hs] using h1
  · intro h
    have := RLang.cat h RLang.eps
    simpa using this

/-- A successful compilation yields exactly one engine, holding the
generated pattern, per the analyzer's tag. -/
theorem compile_eq_of_parse {pattern : Str} {seps : List Char}
    {tree : List Node} (hp : parse pattern = .ok tree) :
    compile pattern seps =
      (match analyze tree with
       | .regexpTag =>
           .ok { r := some ⟨(genSeq seps tree 1).1,
                            (genSeq seps tree 1).2 - 1⟩, p := none }
       | .pcreTag =>
           .ok { r := none,
                 p := some ⟨(genSeq seps tree 1).1,
                            (genSeq seps tree 1).2 - 1⟩ }) := by
  unfold compile compileOut
  rw [hp]
  dsimp only
  cases analyze tree <;> rfl

theorem compile_ok_cases {pattern : Str} {seps : List Char}
    {tree : List Node} {g : Glob}
    (hp : parse pattern = .ok tree) (hc : compile pattern seps = .ok g) :
    (analyze tree = .regexpTag ∧
      g = { r := some ⟨(genSeq seps tree 1).1, (genSeq seps tree 1).2 - 1⟩,
            p := none }) ∨
    (analyze tree = .pcreTag ∧
      g = { r := none,
            p := some ⟨(genSeq seps tree 1).1,
                       (genSeq seps tree 1).2 - 1⟩ }) := by
  rw [compile_eq_of_parse hp] at hc
  cases hta : analyze tree with
  | regexpTag =>
      rw [hta] at hc
      have hc2 : Except.ok (ε := Err)
          { r := some ⟨(genSeq seps tree 1).1, (genSeq seps tree 1).2 - 1⟩,
            p := (none : Option EngineHandle) } = Except.ok g := hc
      exact Or.inl ⟨rfl, (Except.ok.inj hc2).symm⟩
  | pcreTag =>
      rw [hta] at hc
      have hc2 : Except.ok (ε := Err)
          { r := (none : Option EngineHandle),
            p := some ⟨(genSeq seps tree 1).1,
                       (genSeq seps tree 1).2 - 1⟩ } = Except.ok g := hc
      exact Or.inr ⟨rfl, (Except.ok.inj hc2).symm⟩

/-- A successful compilation presupposes a successful parse. -/
theorem compile_ok_parse {pattern : Str} {seps : List Char} {g : Glob}
    (hc : compile pattern seps = .ok g) :
    ∃ tree, parse pattern = .ok tree := by
  unfold compile compileOut at hc
  cases hp : parse pattern with
  | error e => rw [hp] at hc; cases hc
  | ok tree => exact ⟨tree, rfl⟩

/-- The group-extraction result is nonempty exactly on a match. -/
theorem groups_ne_nil_iff {h : EngineHandle} {s : Str} :
    h.groups s ≠ [] ↔ rmatch h.re s = true := by
  unfold EngineHandle.groups
  cases hm : rmatch h.re s with
  | true => simp [List.range_succ]
  | false => simp

/-! ### The quoting round trip (C4 infrastructure) -/

theorem scan_quote : ∀ (s : Str) (fuel pos : Nat),
    (QuoteMeta s).length < fuel →
    scan fuel false false 0 pos (QuoteMeta s) = .ok (quoteToks s)
  | [], fuel, pos, hf => by
      cases fuel with
      | zero => simp at hf
      | succ f => rfl
  | c :: s, fuel, pos, hf => by
      cases fuel with
      | zero => simp at hf
      | succ f =>
          by_cases hS : Special c
          · have hq : QuoteMeta (c :: s) = '\\' :: c :: QuoteMeta s := by
              simp [QuoteMeta, hS]
            have hstep : scan (f + 1) false false 0 pos
                ('\\' :: c :: QuoteMeta s) =
                (scan f false false 0 (pos + 2) (QuoteMeta s)).map
                  (.escaped c :: ·) := rfl
            rw [hq] at hf ⊢
            rw [hstep, scan_quote s f (pos + 2) (by simp at hf; omega)]
            simp [quoteToks, hS, Except.map]
          · have hq : QuoteMeta (c :: s) = c :: QuoteMeta s := by
              simp [QuoteMeta, hS]
            rw [hq] at hf ⊢
            rw [show scan (f + 1) false false 0 pos (c :: QuoteMeta s) =
                if c = '\\' then
                  (match QuoteMeta s with
                   | [] => Except.error (Err.lexError pos)
                   | c2 :: rest2 =>
                      (scan f false false 0 (pos + 2) rest2).map
                        (.escaped c2 :: ·))
                else if c = '*' then
                  (match QuoteMeta s with
                   | '(' :: rest2 =>
                      (scan f false false 1 (pos + 2) rest2).map
                        (.groupOpen .zeroOrMore :: ·)
                   | '*' :: rest2 =>
                      (scan f false false 0 (pos + 2) rest2).map
                        (.anySeqAll :: ·)
                   | r => (scan f false false 0 (pos + 1) r).map
                      (.anySeq :: ·))
                else if c = '?' then
                  (match QuoteMeta s with
                   | '(' :: rest2 =>
                      (scan f false false 1 (pos + 2) rest2).map
                        (.groupOpen .zeroOrOne :: ·)
                   | r => (scan f false false 0 (pos + 1) r).map
                      (.anyOne :: ·))
                else if c = '@' then
                  (match QuoteMeta s with
                   | '(' :: rest2 =>
                      (scan f false false 1 (pos + 2) rest2).map
                        (.groupOpen .oneOf :: ·)
                   | r => (scan f false false 0 (pos + 1) r).map
                      (.literal '@' :: ·))
                else if c = '+' then
                  (match QuoteMeta s with
                   | '(' :: rest2 =>
                      (scan f false false 1 (pos + 2) rest2).map
                        (.groupOpen .oneOrMore :: ·)
                   | r => (scan f false false 0 (pos + 1) r).map
                      (.literal '+' :: ·))
                else if c = '(' then
                  (scan f false false 1 (pos + 1) (QuoteMeta s)).map
                    (.groupOpen .oneOf :: ·)
                else if c = ')' then
                  Except.error (Err.lexError pos)
                else if c = '[' then
                  (match QuoteMeta s with
                   | ']' :: _ => Except.error (Err.lexError pos)
                   | '!' :: ']' :: _ => Except.error (Err.lexError pos)
                   | '!' :: rest2 =>
                      (scan f true true 0 (pos + 2) rest2).map
                        (fun ts => .classOpen :: .classNegate :: ts)
                   | r => (scan f true true 0 (pos + 1) r).map
                      (.classOpen :: ·))
                else if c = ',' ∨ c = '|' then
                  (scan f false false 0 (pos + 1) (QuoteMeta s)).map
                    (.literal c :: ·)
                else
                  (scan f false false 0 (pos + 1) (QuoteMeta s)).map
                    (.literal c :: ·)
              from rfl]
            rw [if_neg (fun he => hS (by rw [he]; decide)),
              if_neg (fun he => hS (by rw [he]; decide)),
              if_neg (fun he => hS (by rw [he]; decide)),
              if_neg (fun he => hS (by rw [he]; decide)),
              if_neg (fun he => hS (by rw [he]; decide)),
              if_neg (fun he => hS (by rw [he]; decide)),
              if_neg (fun he => hS (by rw [he]; decide)),
              if_neg (fun he => hS (by rw [he]; decide)),
              if_neg (by rintro (he | he) <;> exact hS (by rw [he]; decide))]
            rw [scan_quote s f (pos + 1) (by simp at hf; omega)]
            simp [quoteToks, hS, Except.map]

theorem parseSeq_quote : ∀ (s : Str) (fuel : Nat), s.length < fuel →
    parseSeq fuel (quoteToks s) = .ok (s.map .literal, [])
  | [], fuel, hf => by
      cases fuel with
      | zero => simp at hf
      | succ f => rfl
  | c :: s, fuel, hf => by
      cases fuel with
      | zero => simp at hf
      | succ f =>
          by_cases hS : Special c
          · have hq : quoteToks (c :: s) = .escaped c :: quoteToks s := by
              simp [quoteToks, hS]
            have hstep : parseSeq (f + 1) (.escaped c :: quoteToks s) =
                (parseSeq f (quoteToks s)).map
                  (fun pr => (.literal c :: pr.1, pr.2)) := rfl
            rw [hq, hstep, parseSeq_quote s f (by simp at hf; omega)]
            simp [Except.map]
          · have hq : quoteToks (c :: s) = .literal c :: quoteToks s := by
              simp [quoteToks, hS]
            have hstep : parseSeq (f + 1) (.literal c :: quoteToks s) =
                (parseSeq f (quoteToks s)).map
                  (fun pr => (.literal c :: pr.1, pr.2)) := rfl
            rw [hq, hstep, parseSeq_quote s f (by simp at hf; omega)]
            simp [Except.map]

theorem parse_quote (s : Str) : parse (QuoteMeta s) = .ok (s.map .literal) := by
  have h1 := scan_quote s ((QuoteMeta s).length + 1) 0 (by omega)
  have hlen : (quoteToks s).length = s.length := by simp [quoteToks]
  have h2 := parseSeq_quote s (2 * (quoteToks s).length + 2) (by omega)
  unfold parse
  rw [h1]
  show (Except.ok (quoteToks s)) >>= _ = _
  rw [show ∀ (x : List Token)
      (f : List Token → Except Err (List Node)), Except.ok x >>= f = f x
    from fun _ _ => rfl]
  rw [h2]
  rfl

/-- A sequence of literal nodes matches exactly its own spelling. -/
theorem seqMatches_lits {seps : List Char} : ∀ (s t : Str),
    SeqMatches seps (s.map .literal) t ↔ t = s := by
  intro s
  induction s with
  | nil =>
      intro t
      constructor
      · intro h; cases h; rfl
      · rintro rfl; exact .nil
  | cons c s ih =>
      intro t
      constructor
      · intro h
        cases h with
        | literal hrest => rw [(ih _).mp hrest]
      · rintro rfl
        exact .literal ((ih s).mpr rfl)

theorem seqHasGroupB_lits (s : Str) :
    seqHasGroupB (s.map .literal) = false := by
  induction s with
  | nil => rfl
  | cons c s ih => simp [seqHasGroupB, Node.hasGroupB, ih]

theorem analyze_lits (s : Str) : analyze (s.map .literal) = .regexpTag := by
  unfold analyze
  rw [seqHasGroupB_lits]
  rfl

/-! ## The claims -/

/-- C1: for every pattern that compiles successfully and every input
string, `Glob.Match` returns true if and only if the compiled pattern
matches the whole input string under the glob semantics `SeqMatches`
(which relates a pattern to exactly the full strings it covers, so a
match of a proper substring alone never makes `Match` return true). -/
theorem c1_match_iff_whole_string (pattern : Str) (separators : List Char)
    (tree : List Node) (g : Glob) (s : Str)
    (hp : parse pattern = .ok tree)
    (hc : compile pattern separators = .ok g) :
    g.Match s = some true ↔ SeqMatches separators tree s := by
  rcases compile_ok_cases hp hc with ⟨hta, rfl⟩ | ⟨hta, rfl⟩ <;>
  · constructor
    · intro hm
      have hr : rmatch (genSeq separators tree 1).1 s = true := by
        simpa [Glob.Match] using hm
      exact genSeq_sound separators tree 1 s (rmatch_iff.mp hr)
    · intro hm
      have := rmatch_iff.mpr (genSeq_complete hm 1)
      simpa [Glob.Match] using this

theorem c1_witness :
    (Glob.Match ⟨some ⟨.cat (.cls [('a', 'a')] false) .eps, 0⟩, none⟩ ['a']
      = some true) ↔ SeqMatches [] [Node.literal 'a'] ['a'] :=
  c1_match_iff_whole_string ['a'] [] [Node.literal 'a'] _ ['a'] rfl rfl

/-- C2: for every separator set and every string `s`, the glob compiled
from `**` matches `s` unconditionally; the glob compiled from `*` matches
`s` exactly when `s` contains no configured separator character; with the
default empty separator set `*` matches every `s`. -/
theorem c2_star_semantics (separators : List Char) (s : Str) :
    (compile ['*', '*'] separators = .ok gDoubleStar ∧
      gDoubleStar.Match s = some true) ∧
    (compile ['*'] separators = .ok (gSingleStar separators) ∧
      ((gSingleStar separators).Match s = some true ↔
        ∀ c ∈ s, c ∉ separators)) ∧
    (gSingleStar []).Match s = some true := by
  refine ⟨⟨rfl, ?_⟩, ⟨rfl, ?_⟩, ?_⟩
  · have : RLang (.cat (.star (.cls [] true)) .eps) s :=
      rlang_cat_eps_right.mpr (rlang_star_cls fun c _ => inCls_univ)
    have := rmatch_iff.mpr this
    simpa [gDoubleStar, Glob.Match] using this
  · constructor
    · intro hm
      have hr : rmatch (.cat (.star (sepClass separators)) .eps) s = true :=
        by simpa [gSingleStar, Glob.Match] using hm
      have := rlang_star_cls_inv (rlang_cat_eps_right.mp (rmatch_iff.mp hr))
      intro c hc
      exact inCls_sepClass.mp (this c hc)
    · intro hall
      have : RLang (.cat (.star (sepClass separators)) .eps) s :=
        rlang_cat_eps_right.mpr
          (rlang_star_cls fun c hc => inCls_sepClass.mpr (hall c hc))
      have := rmatch_iff.mpr this
      simpa [gSingleStar, Glob.Match] using this
  · have : RLang (.cat (.star (sepClass [])) .eps) s :=
      rlang_cat_eps_right.mpr
        (rlang_star_cls fun c hc => inCls_sepClass.mpr (by simp))
    have := rmatch_iff.mpr this
    simpa [gSingleStar, Glob.Match] using this

/-- C3: a successfully compiled pattern uses the Extended (backtracking,
PCRE) engine exactly when its syntax tree contains a group/alternation
construct anywhere, and the Basic (automaton, regexp) engine exactly when
it does not (the tree then holds only literals, wildcards, and character
classes). -/
theorem c3_engine_selection (pattern : Str) (separators : List Char)
    (tree : List Node) (g : Glob)
    (hp : parse pattern = .ok tree)
    (hc : compile pattern separators = .ok g) :
    (g.p.isSome = true ↔ TreeHasGroup tree) ∧
    (g.r.isSome = true ↔ ¬ TreeHasGroup tree) := by
  rcases compile_ok_cases hp hc with ⟨hta, rfl⟩ | ⟨hta, rfl⟩
  · have hgb : seqHasGroupB tree = false := by
      cases h : seqHasGroupB tree
      · rfl
      · unfold analyze at hta
        rw [h] at hta
        simp at hta
    have hng : ¬ TreeHasGroup tree := by
      rw [← seqHasGroupB_iff, hgb]
      simp
    constructor
    · simpa using hng
    · simpa using hng
  · have hgb : seqHasGroupB tree = true := by
      cases h : seqHasGroupB tree
      · unfold analyze at hta
        rw [h] at hta
        simp at hta
      · rfl
    have hg : TreeHasGroup tree := seqHasGroupB_iff.mp hgb
    constructor
    · simpa using hg
    · simpa using hg

theorem c3_witness :
    ((Glob.p ⟨none, some ⟨.cat (.grp 1 (.cat (.cls [('a', 'a')] false)
          .eps)) .eps, 1⟩⟩).isSome = true ↔
      TreeHasGroup [.group .oneOf [[.literal 'a']]]) ∧
    ((Glob.r ⟨none, some ⟨.cat (.grp 1 (.cat (.cls [('a', 'a')] false)
          .eps)) .eps, 1⟩⟩).isSome = true ↔
      ¬ TreeHasGroup [.group .oneOf [[.literal 'a']]]) :=
  c3_engine_selection ['@', '(', 'a', ')'] []
    [.group .oneOf [[.literal 'a']]] _ rfl rfl

/-- C4: quoting round-trip. For every string `s` (and any separator set),
compiling `QuoteMeta s` succeeds and the resulting glob matches `s`; and
when `s` contains a meta-character, the glob does not match `s ++ "x"`
(the quoted pattern matches exactly `s`, and `s ++ "x" ≠ s`, so the
claim's "unless `s ++ "x"` also matches literally" escape clause never
applies). -/
theorem c4_quote_round_trip (s : Str) (separators : List Char) :
    (compile (QuoteMeta s) separators = .ok (quoteGlob s separators) ∧
      (quoteGlob s separators).Match s = some true) ∧
    ((∃ c ∈ s, Special c = true) →
      (quoteGlob s separators).Match (s ++ ['x']) = some false) := by
  have hlits : ∀ t : Str,
      rmatch (genSeq separators (s.map .literal) 1).1 t = true ↔ t = s := by
    intro t
    rw [rmatch_iff]
    constructor
    · intro h
      exact (seqMatches_lits s t).mp (genSeq_sound separators _ 1 t h)
    · rintro rfl
      exact genSeq_complete ((seqMatches_lits _ _).mpr rfl) 1
  refine ⟨⟨?_, ?_⟩, ?_⟩
  · rw [compile_eq_of_parse (parse_quote s), analyze_lits]
    rfl
  · have := (hlits s).mpr rfl
    simpa [quoteGlob, Glob.Match] using this
  · intro _
    have hne : rmatch (genSeq separators (s.map .literal) 1).1
        (s ++ ['x']) = false := by
      cases hm : rmatch (genSeq separators (s.map .literal) 1).1
          (s ++ ['x']) with
      | false => rfl
      | true =>
          have := (hlits (s ++ ['x'])).mp hm
          have hlen := congrArg List.length this
          simp at hlen
    simpa [quoteGlob, Glob.Match] using hne

theorem c4_witness :
    compile (QuoteMeta ['*']) [] = .ok (quoteGlob ['*'] []) ∧
    (quoteGlob ['*'] []).Match ['*'] = some true ∧
    (quoteGlob ['*'] []).Match (['*'] ++ ['x']) = some false :=
  ⟨(c4_quote_round_trip ['*'] []).1.1, (c4_quote_round_trip ['*'] []).1.2,
    (c4_quote_round_trip ['*'] []).2 ⟨'*', by decide, by decide⟩⟩

/-- C5: for the pattern `@(foo|bar)baz` and input `foobaz`, `Capture`
returns exactly the ordered sequence `["foobaz", "foo"]`: index 0 the
whole match, index 1 the group capture. -/
theorem c5_capture_ordering :
    (compile ['@', '(', 'f', 'o', 'o', '|', 'b', 'a', 'r', ')',
              'b', 'a', 'z'] []).map
      (fun g => g.Capture ['f', 'o', 'o', 'b', 'a', 'z']) =
    .ok (some [['f', 'o', 'o', 'b', 'a', 'z'], ['f', 'o', 'o']]) := by
  rfl

/-- C6: once compilation succeeds, `Match` and `Capture` always return a
result on every input string (the nil-engine branch that would model the
nil-pointer dereference is unreachable). -/
theorem c6_totality (pattern : Str) (separators : List Char) (g : Glob)
    (hc : compile pattern separators = .ok g) (s : Str) :
    (g.Match s).isSome = true ∧ (g.Capture s).isSome = true := by
  obtain ⟨tree, hp⟩ := compile_ok_parse hc
  rcases compile_ok_cases hp hc with ⟨_, rfl⟩ | ⟨_, rfl⟩ <;>
    exact ⟨rfl, rfl⟩

theorem c6_witness :
    ((Glob.Match ⟨some ⟨.cat (.cls [('a', 'a')] false) .eps, 0⟩, none⟩
        ['b']).isSome = true) ∧
    ((Glob.Capture ⟨some ⟨.cat (.cls [('a', 'a')] false) .eps, 0⟩, none⟩
        ['b']).isSome = true) :=
  c6_totality ['a'] [] _ rfl ['b']

/-- C7: compilation is deterministic — two successful compilations of the
same pattern with the same separators yield globs with the same engine
selection and identical `Match` results on every input (and, `compile`
being a function, two calls with the same arguments either both fail with
the same error or both yield this same glob). -/
theorem c7_deterministic (pattern : Str) (separators : List Char)
    (g1 g2 : Glob)
    (h1 : compile pattern separators = .ok g1)
    (h2 : compile pattern separators = .ok g2) :
    g1.r.isSome = g2.r.isSome ∧ g1.p.isSome = g2.p.isSome ∧
    ∀ s, g1.Match s = g2.Match s := by
  rw [h1] at h2
  cases h2
  exact ⟨rfl, rfl, fun _ => rfl⟩

theorem c7_witness :
    (Glob.r ⟨some ⟨.cat (.cls [('a', 'a')] false) .eps, 0⟩, none⟩).isSome =
      (Glob.r ⟨some ⟨.cat (.cls [('a', 'a')] false) .eps, 0⟩, none⟩).isSome ∧
    (Glob.p ⟨some ⟨.cat (.cls [('a', 'a')] false) .eps, 0⟩, none⟩).isSome =
      (Glob.p ⟨some ⟨.cat (.cls [('a', 'a')] false) .eps, 0⟩, none⟩).isSome ∧
    ∀ s, Glob.Match ⟨some ⟨.cat (.cls [('a', 'a')] false) .eps, 0⟩, none⟩ s =
      Glob.Match ⟨some ⟨.cat (.cls [('a', 'a')] false) .eps, 0⟩, none⟩ s :=
  c7_deterministic ['a'] [] _ _ rfl rfl

/-- C8 (code bug): a successful run of `Compile` writes two lines to
standard output — the `fmt.Println` debug statements at glob.go lines
67-68 — contradicting the claim that the pipeline writes nothing to any
output stream. Evaluated at the pattern `*` with no separators. -/
theorem c8_compile_prints :
    (compileOut ['*'] []).2 = ["pattern: *", "regexp: Regexp"] ∧
    (compileOut ['*'] []).2 ≠ [] := by
  refine ⟨rfl, ?_⟩
  intro h
  rw [show (compileOut ['*'] []).2 = ["pattern: *", "regexp: Regexp"]
    from rfl] at h
  exact List.noConfusion h

/-- C9: `MustCompile` returns exactly the glob `Compile` returns when it
succeeds, and panics with the error `Compile` produced exactly when
`Compile` fails (the model renders the panic as the propagated error);
it never produces a glob other than `Compile`'s. -/
theorem c9_mustCompile (pattern : Str) (separators : List Char) :
    mustCompile pattern separators = compile pattern separators ∧
    (∀ g, compile pattern separators = .ok g →
      mustCompile pattern separators = .ok g) ∧
    (∀ e, compile pattern separators = .error e →
      mustCompile pattern separators = .error e) := by
  have h : mustCompile pattern separators = compile pattern separators := by
    unfold mustCompile
    cases compile pattern separators <;> rfl
  exact ⟨h, fun g hg => h.trans hg, fun e he => h.trans he⟩

theorem c9_witness :
    mustCompile ['a'] [] =
      .ok ⟨some ⟨.cat (.cls [('a', 'a')] false) .eps, 0⟩, none⟩ ∧
    mustCompile [')'] [] = .error (.lexError 0) :=
  ⟨(c9_mustCompile ['a'] []).2.1 _ rfl, (c9_mustCompile [')'] []).2.2 _ rfl⟩

/-- C10: for every successfully compiled glob and every input string,
`Capture` returns a result list that is nonempty exactly when `Match`
returns true (and empty when it returns false). -/
theorem c10_capture_nonempty_iff_match (pattern : Str)
    (separators : List Char) (g : Glob)
    (hc : compile pattern separators = .ok g) (s : Str) :
    ∃ l, g.Capture s = some l ∧ (l ≠ [] ↔ g.Match s = some true) := by
  obtain ⟨tree, hp⟩ := compile_ok_parse hc
  rcases compile_ok_cases hp hc with ⟨_, rfl⟩ | ⟨_, rfl⟩ <;>
  · refine ⟨_, rfl, ?_⟩
    rw [groups_ne_nil_iff]
    simp [Glob.Match]

theorem c10_witness :
    ∃ l, Glob.Capture ⟨some ⟨.cat (.cls [('a', 'a')] false) .eps, 0⟩, none⟩
        ['a'] = some l ∧
      (l ≠ [] ↔ Glob.Match ⟨some ⟨.cat (.cls [('a', 'a')] false) .eps, 0⟩,
        none⟩ ['a'] = some true) :=
  c10_capture_nonempty_iff_match ['a'] [] _ rfl ['a']
